import Mathlib

set_option autoImplicit false

namespace FinanceBot

/-!  Shallow embedding of the finance_bot core (transcript normalizer and
structured-output extractor).  Strings are modelled as `List Char`; Python
dictionaries as ordered association lists.  -/

/-- ASCII whitespace as matched by Python's regex class and by strip
(`0x09`-`0x0d` and space); non-ASCII whitespace does not occur in the
inputs handled here. -/
def pyIsSpace (c : Char) : Bool :=
  c = ' ' || c = '\t' || c = '\n' || c = '\r' || c = '\x0b' || c = '\x0c'

/-- Python `str.strip()`: drop whitespace from both ends. -/
def pyStrip (s : List Char) : List Char :=
  ((s.dropWhile pyIsSpace).reverse.dropWhile pyIsSpace).reverse

/-! ## ContentAnalyzer._split_transcript_into_chunks
(src/llm_processor/content_analyzer.py)

`transcript.split("\n")`, then slices `lines[i : i + max_lines]` for
`i = 0, max_lines, 2*max_lines, ...`, each joined with `"\n"`. -/

/-- Python `s.split("\n")`. -/
def splitOnNl : List Char → List (List Char)
  | [] => [[]]
  | c :: cs =>
    if c = '\n' then [] :: splitOnNl cs
    else
      match splitOnNl cs with
      | [] => [[c]]
      | l :: ls => (c :: l) :: ls

/-- Python `"\n".join(ls)`. -/
def intercalateNl : List (List Char) → List Char
  | [] => []
  | [l] => l
  | l :: ls => l ++ '\n' :: intercalateNl ls

/-- The successive slices `lines[i : i + m]` taken by
`range(0, len(lines), m)`; faithful to the Python loop for `m ≥ 1`. -/
def chunksOf {α : Type} (m : Nat) : List α → List (List α)
  | [] => []
  | x :: xs => (x :: xs.take (m - 1)) :: chunksOf m (xs.drop (m - 1))
  termination_by l => l.length
  decreasing_by simp [List.length_drop]; omega

/-- `ContentAnalyzer._split_transcript_into_chunks`. -/
def split_transcript_into_chunks (transcript : List Char) (max_lines : Nat) :
    List (List Char) :=
  if transcript = [] then []
  else (chunksOf max_lines (splitOnNl transcript)).map intercalateNl

theorem splitOnNl_ne_nil (s : List Char) : splitOnNl s ≠ [] := by
  induction s with
  | nil => simp [splitOnNl]
  | cons c cs ih =>
    simp only [splitOnNl]
    split
    · simp
    · cases h : splitOnNl cs <;> simp

theorem intercalateNl_splitOnNl (s : List Char) :
    intercalateNl (splitOnNl s) = s := by
  induction s with
  | nil => rfl
  | cons c cs ih =>
    simp only [splitOnNl]
    split
    · rename_i hc
      have hne := splitOnNl_ne_nil cs
      cases h : splitOnNl cs with
      | nil => exact absurd h hne
      | cons l ls =>
        rw [h] at ih
        subst hc
        simp only [intercalateNl]
        cases ls with
        | nil => simp_all [intercalateNl]
        | cons l' ls' => simp_all [intercalateNl]
    · cases h : splitOnNl cs with
      | nil => exact absurd h (splitOnNl_ne_nil cs)
      | cons l ls =>
        rw [h] at ih
        cases ls with
        | nil => simp_all [intercalateNl]
        | cons l' ls' => simp_all [intercalateNl]

theorem not_nl_mem_splitOnNl (s : List Char) :
    ∀ l ∈ splitOnNl s, '\n' ∉ l := by
  induction s with
  | nil =>
    intro l hl
    simp [splitOnNl] at hl
    simp [hl]
  | cons c cs ih =>
    intro l hl
    simp only [splitOnNl] at hl
    split at hl
    · rcases List.mem_cons.mp hl with h | h
      · simp [h]
      · exact ih l h
    · rename_i hc
      cases h : splitOnNl cs with
      | nil => exact absurd h (splitOnNl_ne_nil cs)
      | cons l0 ls =>
        rw [h] at hl
        rcases List.mem_cons.mp hl with h1 | h1
        · subst h1
          intro hmem
          rcases List.mem_cons.mp hmem with h2 | h2
          · exact hc h2.symm
          · exact ih l0 (h ▸ List.mem_cons_self l0 ls) h2
        · exact ih l (h ▸ List.mem_cons_of_mem l0 h1)

theorem splitOnNl_cons_ne (c : Char) (cs : List Char) (hc : c ≠ '\n') :
    splitOnNl (c :: cs) =
      match splitOnNl cs with
      | [] => [[c]]
      | l :: ls => (c :: l) :: ls := by
  simp [splitOnNl, hc]

theorem splitOnNl_append_nl (l R : List Char) (hl : '\n' ∉ l) :
    splitOnNl (l ++ '\n' :: R) = l :: splitOnNl R := by
  induction l with
  | nil => simp [splitOnNl]
  | cons c cs ih =>
    have hc : c ≠ '\n' := fun h => hl (h ▸ List.mem_cons_self c cs)
    have hcs : '\n' ∉ cs := fun h => hl (List.mem_cons_of_mem c h)
    rw [List.cons_append, splitOnNl_cons_ne c _ hc, ih hcs]

theorem splitOnNl_no_nl (l : List Char) (hl : '\n' ∉ l) :
    splitOnNl l = [l] := by
  induction l with
  | nil => rfl
  | cons c cs ih =>
    have hc : c ≠ '\n' := fun h => hl (h ▸ List.mem_cons_self c cs)
    have hcs : '\n' ∉ cs := fun h => hl (List.mem_cons_of_mem c h)
    rw [splitOnNl_cons_ne c cs hc, ih hcs]

theorem splitOnNl_intercalateNl (ls : List (List Char)) (hne : ls ≠ [])
    (hnl : ∀ l ∈ ls, '\n' ∉ l) : splitOnNl (intercalateNl ls) = ls := by
  induction ls with
  | nil => exact absurd rfl hne
  | cons l ls ih =>
    cases ls with
    | nil => exact splitOnNl_no_nl l (hnl l (List.mem_cons_self l []))
    | cons l' ls' =>
      have hl : '\n' ∉ l := hnl l (List.mem_cons_self l _)
      have hrest : splitOnNl (intercalateNl (l' :: ls')) = l' :: ls' :=
        ih (by simp) (fun x hx => hnl x (List.mem_cons_of_mem l hx))
      show splitOnNl (l ++ '\n' :: intercalateNl (l' :: ls')) = l :: l' :: ls'
      rw [splitOnNl_append_nl l _ hl, hrest]

theorem intercalateNl_append (as bs : List (List Char)) (ha : as ≠ [])
    (hb : bs ≠ []) :
    intercalateNl (as ++ bs) = intercalateNl as ++ '\n' :: intercalateNl bs := by
  induction as with
  | nil => exact absurd rfl ha
  | cons a as ih =>
    cases as with
    | nil =>
      cases bs with
      | nil => exact absurd rfl hb
      | cons b bs' => simp [intercalateNl]
    | cons a' as' =>
      have h1 := ih (by simp)
      have h2 : (a :: a' :: as') ++ bs = a :: a' :: (as' ++ bs) := rfl
      rw [h2]
      show a ++ '\n' :: intercalateNl (a' :: (as' ++ bs)) =
        (a ++ '\n' :: intercalateNl (a' :: as')) ++ '\n' :: intercalateNl bs
      have h3 : a' :: (as' ++ bs) = (a' :: as') ++ bs := rfl
      rw [h3, h1]
      simp

theorem chunksOf_nil {α : Type} (m : Nat) : chunksOf m ([] : List α) = [] := by
  rw [chunksOf]

theorem chunksOf_cons {α : Type} (m : Nat) (x : α) (xs : List α) :
    chunksOf m (x :: xs) = (x :: xs.take (m - 1)) :: chunksOf m (xs.drop (m - 1)) := by
  rw [chunksOf]

theorem intercalateNl_chunksOf (m : Nat) (ls : List (List Char)) :
    intercalateNl ((chunksOf m ls).map intercalateNl) = intercalateNl ls := by
  cases ls with
  | nil => simp [chunksOf_nil]
  | cons x xs =>
    rw [chunksOf_cons]
    cases hd : xs.drop (m - 1) with
    | nil =>
      have htake : xs.take (m - 1) = xs := by
        have h := List.take_append_drop (m - 1) xs
        rw [hd, List.append_nil] at h
        exact h
      rw [chunksOf_nil]
      simp [htake, intercalateNl]
    | cons y ys =>
      rw [← hd]
      have ihrec := intercalateNl_chunksOf m (xs.drop (m - 1))
      have hbs : (chunksOf m (xs.drop (m - 1))).map intercalateNl ≠ [] := by
        rw [hd, chunksOf_cons]
        simp
      rw [List.map_cons]
      rw [show intercalateNl (x :: xs.take (m - 1)) ::
            (chunksOf m (xs.drop (m - 1))).map intercalateNl =
          [intercalateNl (x :: xs.take (m - 1))] ++
            (chunksOf m (xs.drop (m - 1))).map intercalateNl from rfl]
      rw [intercalateNl_append [intercalateNl (x :: xs.take (m - 1))]
        ((chunksOf m (xs.drop (m - 1))).map intercalateNl) (by simp) hbs]
      rw [show intercalateNl [intercalateNl (x :: xs.take (m - 1))] =
          intercalateNl (x :: xs.take (m - 1)) from rfl]
      rw [ihrec]
      rw [← intercalateNl_append (x :: xs.take (m - 1)) (xs.drop (m - 1))
        (by simp) (by rw [hd]; simp)]
      rw [show (x :: xs.take (m - 1)) ++ xs.drop (m - 1) =
          x :: (xs.take (m - 1) ++ xs.drop (m - 1)) from rfl]
      rw [List.take_append_drop]
  termination_by ls.length
  decreasing_by simp [List.length_drop]; omega

theorem chunksOf_mem_length {α : Type} (m : Nat) (hm : 1 ≤ m)
    (ls : List α) : ∀ c ∈ chunksOf m ls, c.length ≤ m ∧ c ≠ [] ∧ ∀ x ∈ c, x ∈ ls := by
  cases ls with
  | nil => intro c hc; simp [chunksOf_nil] at hc
  | cons x xs =>
    intro c hc
    rw [chunksOf_cons] at hc
    rcases List.mem_cons.mp hc with h | h
    · subst h
      refine ⟨?_, by simp, ?_⟩
      · simp [List.length_take]
        omega
      · intro a ha
        rcases List.mem_cons.mp ha with h1 | h1
        · simp [h1]
        · exact List.mem_cons_of_mem x (List.take_subset _ _ h1)
    · have hrec := chunksOf_mem_length m hm (xs.drop (m - 1)) c h
      exact ⟨hrec.1, hrec.2.1, fun a ha =>
        List.mem_cons_of_mem x (List.drop_subset _ _ (hrec.2.2 a ha))⟩
  termination_by ls.length
  decreasing_by simp [List.length_drop]; omega

/-- C10: each chunk has at most `m` lines, joining the chunks with a single
newline reconstructs the transcript, and the empty transcript yields no
chunks. -/
theorem chunks_round_trip (t : List Char) (m : Nat) (hm : 1 ≤ m) :
    (∀ c ∈ split_transcript_into_chunks t m, (splitOnNl c).length ≤ m)
      ∧ (t ≠ [] → intercalateNl (split_transcript_into_chunks t m) = t)
      ∧ split_transcript_into_chunks [] m = [] := by
  refine ⟨?_, ?_, by simp [split_transcript_into_chunks]⟩
  · intro c hc
    unfold split_transcript_into_chunks at hc
    split at hc
    · simp at hc
    · rcases List.mem_map.mp hc with ⟨g, hg, hgc⟩
      have hprops := chunksOf_mem_length m hm (splitOnNl t) g hg
      have hnl : ∀ l ∈ g, '\n' ∉ l := fun l hl =>
        not_nl_mem_splitOnNl t l (hprops.2.2 l hl)
      rw [← hgc, splitOnNl_intercalateNl g hprops.2.1 hnl]
      exact hprops.1
  · intro ht
    unfold split_transcript_into_chunks
    rw [if_neg ht]
    rw [intercalateNl_chunksOf, intercalateNl_splitOnNl]

/-- C10 witness at a concrete transcript and bound. -/
theorem chunks_round_trip_witness :
    (∀ c ∈ split_transcript_into_chunks ('a' :: '\n' :: 'b' :: '\n' :: 'c' :: []) 2,
        (splitOnNl c).length ≤ 2)
      ∧ intercalateNl
          (split_transcript_into_chunks ('a' :: '\n' :: 'b' :: '\n' :: 'c' :: []) 2)
          = ('a' :: '\n' :: 'b' :: '\n' :: 'c' :: []) := by
  have h := chunks_round_trip ('a' :: '\n' :: 'b' :: '\n' :: 'c' :: []) 2 (by decide)
  exact ⟨h.1, h.2.1 (by decide)⟩

/-! ## TingwuClient._merge_sentences_by_speaker
(src/transcriber/tingwu_client.py)

A sentence unit carries the values read by `sent.get("Text", "")`,
`sent.get("SpeakerId", "1")`, `sent.get("BeginTime", 0)` and
`sent.get("EndTime", 0)` on a well-typed vendor payload. -/

structure SentenceU where
  text : List Char
  speakerId : List Char
  beginTime : Nat
  endTime : Nat
deriving DecidableEq

/-- Output segment of the merger; `speaker` is `none` while Python still
holds `current_speaker = None`. -/
structure Segment where
  text : List Char
  speaker : Option (List Char)
  startTime : Nat
  endTime : Nat
deriving DecidableEq

/-- Python truthiness of `current_speaker` (`None` and `""` are falsy). -/
def spkTruthy : Option (List Char) → Bool
  | none => false
  | some s => !s.isEmpty

/-- The string held by `current_speaker` (meaningful when truthy). -/
def spkStr : Option (List Char) → List Char
  | none => []
  | some s => s

/-- Python `"".join(texts)`. -/
def concatTexts : List (List Char) → List Char
  | [] => []
  | l :: ls => l ++ concatTexts ls

/-- The merger's loop over `sentences`, carrying `current_speaker`,
`current_texts` and `current_start`; `lastEnd` is
`sentences[-1].get("EndTime", 0)` used by the final flush. -/
def merge_aux (lastEnd : Nat) : List SentenceU → Option (List Char) →
    List (List Char) → Nat → List Segment
  | [], spk, texts, start =>
    if texts = [] then [] else [⟨concatTexts texts, spk, start, lastEnd⟩]
  | s :: rest, spk, texts, start =>
    let text := pyStrip s.text
    if text = [] then merge_aux lastEnd rest spk texts start
    else if spkTruthy spk ∧ s.speakerId ≠ spkStr spk then
      (if texts = [] then [] else
        [⟨concatTexts texts, spk, start, s.beginTime⟩]) ++
        merge_aux lastEnd rest spk [text] s.beginTime
    else if spkTruthy spk = false then
      merge_aux lastEnd rest (some s.speakerId) (texts ++ [text]) s.beginTime
    else
      merge_aux lastEnd rest spk (texts ++ [text]) start

/-- `TingwuClient._merge_sentences_by_speaker`. -/
def merge_sentences_by_speaker (sentences : List SentenceU) : List Segment :=
  if sentences = [] then []
  else
    merge_aux ((sentences.getLast?).elim 0 SentenceU.endTime) sentences none [] 0

/-- Python `"\n\n".join(ls)`. -/
def joinSep (sep : List Char) : List (List Char) → List Char
  | [] => []
  | [l] => l
  | l :: ls => l ++ sep ++ joinSep sep ls

/-- The `Sentences` branch of `TingwuClient._parse_json_content`
(lines 195-205): segments from the merger, full text their
`"\n\n"`-join. -/
def sentences_branch (sentences : List SentenceU) :
    List Segment × List Char :=
  let segments := merge_sentences_by_speaker sentences
  (segments, joinSep ('\n' :: '\n' :: []) (segments.map Segment.text))

/-- C3 input: three units `("A","S1") ("B","S1") ("C","S2")` with
increasing timestamps. -/
def c3_input : List SentenceU :=
  [⟨['A'], ['S', '1'], 0, 1⟩, ⟨['B'], ['S', '1'], 2, 3⟩,
   ⟨['C'], ['S', '2'], 4, 5⟩]

/-- C3: on the three-unit input the merger yields two segments with texts
"AB" and "C", but both carry speaker "S1": `current_speaker` is never
reassigned after the first unit, so the second segment is not attributed
to "S2" as the merger's stated purpose requires. -/
theorem merge_c3_eval :
    merge_sentences_by_speaker c3_input =
      [⟨['A', 'B'], some ['S', '1'], 0, 4⟩,
       ⟨['C'], some ['S', '1'], 4, 5⟩]
    ∧ (merge_sentences_by_speaker c3_input).map Segment.speaker ≠
      [some ['S', '1'], some ['S', '2']] := by
  constructor
  · rfl
  · decide

/-- C4 counterexample input: previous unit of the first speaker run ends
at 3, while the unit that triggers the change begins at 4. -/
def c4_input : List SentenceU :=
  [⟨['x'], ['P'], 0, 1⟩, ⟨['y'], ['P'], 2, 3⟩, ⟨['z'], ['Q'], 4, 5⟩]

/-- C4 counterexample: the segment closed at the speaker change carries
`end_time = 4` (the changing unit's begin time), not `3` (the previous
unit's end time) as the claim states. -/
theorem merge_c4_counterexample :
    ((merge_sentences_by_speaker c4_input).head?.map Segment.endTime) = some 4
    ∧ ((merge_sentences_by_speaker c4_input).head?.map Segment.endTime) ≠ some 3
    ∧ (c4_input.get? 1).map SentenceU.endTime = some 3 := by
  refine ⟨rfl, ?_, rfl⟩
  decide

theorem concatTexts_append (xs ys : List (List Char)) :
    concatTexts (xs ++ ys) = concatTexts xs ++ concatTexts ys := by
  induction xs with
  | nil => rfl
  | cons x xs ih => simp [concatTexts, ih]

/-- Behaviour of the loop across a run of one truthy speaker followed by a
different-speaker unit: the run is closed as one segment whose end time is
the begin time of the unit triggering the change. -/
theorem merge_aux_run (lastEnd : Nat) (spk : List Char) (hspk : spk ≠ [])
    (b : SentenceU) (hb : b.speakerId ≠ spk) (hbt : pyStrip b.text ≠ [])
    (rest : List SentenceU) :
    ∀ (run : List SentenceU) (texts : List (List Char)) (start : Nat),
      texts ≠ [] →
      (∀ u ∈ run, u.speakerId = spk ∧ pyStrip u.text ≠ []) →
      merge_aux lastEnd (run ++ b :: rest) (some spk) texts start =
        ⟨concatTexts (texts ++ run.map (fun u => pyStrip u.text)), some spk,
          start, b.beginTime⟩ ::
          merge_aux lastEnd rest (some spk) [pyStrip b.text] b.beginTime := by
  intro run
  induction run with
  | nil =>
    intro texts start htexts _
    rw [List.nil_append, merge_aux]
    simp only [if_neg hbt]
    have htr : spkTruthy (some spk) = true := by
      simp [spkTruthy, hspk]
    rw [if_pos ⟨htr, by simpa [spkStr] using hb⟩, if_neg htexts]
    simp [concatTexts_append]
  | cons u run ih =>
    intro texts start htexts hrun
    have hu := hrun u (List.mem_cons_self u run)
    rw [List.cons_append, merge_aux]
    simp only [if_neg hu.2]
    have htr : spkTruthy (some spk) = true := by simp [spkTruthy, hspk]
    rw [if_neg (by simp [spkStr, htr, hu.1] : ¬(spkTruthy (some spk) = true ∧ u.speakerId ≠ spkStr (some spk)))]
    rw [if_neg (by simp [htr])]
    rw [ih (texts ++ [pyStrip u.text]) start (by simp)
      (fun v hv => hrun v (List.mem_cons_of_mem u hv))]
    simp [List.append_assoc]

/-- C4 amended: for every leading run of units sharing one non-empty
speaker id (each with non-empty stripped text) followed by a unit of a
different speaker with non-empty text, the segment closed at the change
has `start_time` equal to the first unit's begin time and `end_time`
equal to the begin time of the unit at which the change occurs. -/
theorem merge_speaker_change_close (a : SentenceU) (run : List SentenceU)
    (b : SentenceU) (rest : List SentenceU)
    (hspk : a.speakerId ≠ [])
    (ha : pyStrip a.text ≠ [])
    (hrun : ∀ u ∈ run, u.speakerId = a.speakerId ∧ pyStrip u.text ≠ [])
    (hb : b.speakerId ≠ a.speakerId) (hbt : pyStrip b.text ≠ []) :
    (merge_sentences_by_speaker ((a :: run) ++ b :: rest)).head? =
      some ⟨concatTexts ((a :: run).map (fun u => pyStrip u.text)),
        some a.speakerId, a.beginTime, b.beginTime⟩ := by
  rw [merge_sentences_by_speaker, if_neg (by simp)]
  rw [List.cons_append, merge_aux]
  simp only [if_neg ha]
  rw [if_neg (by simp [spkTruthy] : ¬(spkTruthy none = true ∧ a.speakerId ≠ spkStr none))]
  rw [if_pos (by simp [spkTruthy])]
  rw [List.nil_append]
  rw [merge_aux_run _ a.speakerId hspk b hb hbt rest run [pyStrip a.text]
    a.beginTime (by simp) hrun]
  simp

/-- C4 amended witness at a concrete run. -/
theorem merge_speaker_change_close_witness :
    (merge_sentences_by_speaker
        [⟨['x'], ['P'], 0, 1⟩, ⟨['y'], ['P'], 2, 3⟩, ⟨['z'], ['Q'], 4, 5⟩]).head? =
      some ⟨['x', 'y'], some ['P'], 0, 4⟩ := by
  have h := merge_speaker_change_close ⟨['x'], ['P'], 0, 1⟩
    [⟨['y'], ['P'], 2, 3⟩] ⟨['z'], ['Q'], 4, 5⟩ []
    (by decide) (by decide) (by decide) (by decide) (by decide)
  exact h

/-- Sortedness invariant of the merge loop: with non-decreasing unit begin
times and `start` below every remaining begin time, the produced segments
have non-decreasing start times, all at least `start`. -/
theorem merge_aux_sorted (lastEnd : Nat) (sents : List SentenceU) :
    ∀ (spk : Option (List Char)) (texts : List (List Char)) (start : Nat),
      List.Pairwise (· ≤ ·) (sents.map SentenceU.beginTime) →
      (∀ u ∈ sents, start ≤ u.beginTime) →
      List.Pairwise (· ≤ ·)
          ((merge_aux lastEnd sents spk texts start).map Segment.startTime)
        ∧ ∀ seg ∈ merge_aux lastEnd sents spk texts start,
            start ≤ seg.startTime := by
  induction sents with
  | nil =>
    intro spk texts start _ _
    rw [merge_aux]
    split
    · simp
    · simp
  | cons s rest ih =>
    intro spk texts start hpw hstart
    have hpw' : List.Pairwise (· ≤ ·) (rest.map SentenceU.beginTime) :=
      (List.pairwise_cons.mp hpw).2
    have hsle : ∀ u ∈ rest, s.beginTime ≤ u.beginTime := by
      intro u hu
      exact (List.pairwise_cons.mp hpw).1 u.beginTime
        (List.mem_map.mpr ⟨u, hu, rfl⟩)
    have hstart_s : start ≤ s.beginTime := hstart s (List.mem_cons_self s rest)
    have hstart' : ∀ u ∈ rest, start ≤ u.beginTime := fun u hu =>
      le_trans hstart_s (hsle u hu)
    rw [merge_aux]
    split
    · exact ih spk texts start hpw' hstart'
    · split
      · have ihr := ih spk [pyStrip s.text] s.beginTime hpw' hsle
        split
        · rw [List.nil_append]
          exact ⟨ihr.1, fun seg hseg => le_trans hstart_s (ihr.2 seg hseg)⟩
        · rw [List.singleton_append]
          constructor
          · rw [List.map_cons]
            rw [List.pairwise_cons]
            refine ⟨?_, ihr.1⟩
            intro t ht
            rcases List.mem_map.mp ht with ⟨seg, hseg, rfl⟩
            exact le_trans hstart_s (ihr.2 seg hseg)
          · intro seg hseg
            rcases List.mem_cons.mp hseg with h | h
            · rw [h]
            · exact le_trans hstart_s (ihr.2 seg h)
      · split
        · have ihr := ih (some s.speakerId) (texts ++ [pyStrip s.text])
            s.beginTime hpw' hsle
          exact ⟨ihr.1, fun seg hseg =>
            le_trans hstart_s (ihr.2 seg hseg)⟩
        · exact ih spk (texts ++ [pyStrip s.text]) start hpw' hstart'

/-- C8: for a well-formed sentence list (non-decreasing begin times) the
sentence-level branch yields segments sorted non-decreasing by start time,
and its full text is exactly the `"\n\n"`-join of the segment texts. -/
theorem sentences_branch_invariant (sentences : List SentenceU)
    (hsorted : List.Pairwise (· ≤ ·) (sentences.map SentenceU.beginTime)) :
    List.Pairwise (· ≤ ·)
        ((sentences_branch sentences).1.map Segment.startTime)
      ∧ (sentences_branch sentences).2 =
        joinSep ('\n' :: '\n' :: [])
          ((sentences_branch sentences).1.map Segment.text) := by
  refine ⟨?_, rfl⟩
  show List.Pairwise (· ≤ ·)
    ((merge_sentences_by_speaker sentences).map Segment.startTime)
  rw [merge_sentences_by_speaker]
  split
  · simp
  · exact (merge_aux_sorted _ sentences none [] 0 hsorted
      (fun u _ => Nat.zero_le _)).1

/-- C8 witness at a concrete well-formed payload. -/
theorem sentences_branch_invariant_witness :
    List.Pairwise (· ≤ ·)
        ((sentences_branch
            [⟨['h', 'i'], ['1'], 0, 2⟩, ⟨['y', 'o'], ['2'], 3, 5⟩]).1.map
          Segment.startTime)
      ∧ (sentences_branch
            [⟨['h', 'i'], ['1'], 0, 2⟩, ⟨['y', 'o'], ['2'], 3, 5⟩]).2 =
        joinSep ('\n' :: '\n' :: [])
          ((sentences_branch
              [⟨['h', 'i'], ['1'], 0, 2⟩, ⟨['y', 'o'], ['2'], 3, 5⟩]).1.map
            Segment.text) :=
  sentences_branch_invariant
    [⟨['h', 'i'], ['1'], 0, 2⟩, ⟨['y', 'o'], ['2'], 3, 5⟩] (by decide)

/-! ## JSON values and Python dict operations

Python values flowing through the extractor are JSON trees; numbers keep
their source token, since no arithmetic is performed on them. Dicts are
ordered association lists, as in CPython. -/

inductive JsonValue where
  | null
  | bool (b : Bool)
  | num (tok : List Char)
  | str (s : List Char)
  | arr (items : List JsonValue)
  | obj (entries : List (List Char × JsonValue))

/-- Ordered dictionary with string keys, the model of a Python dict. -/
abbrev JDict := List (List Char × JsonValue)

/-- Python `d[k]` lookup (first matching key). -/
def dGet (k : List Char) : JDict → Option JsonValue
  | [] => none
  | (k', v) :: rest => if k' = k then some v else dGet k rest

/-- Python `d.get(k, dft)`. -/
def dGetD (k : List Char) (d : JDict) (dft : JsonValue) : JsonValue :=
  (dGet k d).getD dft

/-- Python `d[k] = v`: replace in place, else append. -/
def dSet (k : List Char) (v : JsonValue) : JDict → JDict
  | [] => [(k, v)]
  | (k', v') :: rest =>
    if k' = k then (k', v) :: rest else (k', v') :: dSet k v rest

/-- Python `d.setdefault(k, v)` as a dict transformation. -/
def dSetdefault (k : List Char) (v : JsonValue) (d : JDict) : JDict :=
  if (dGet k d).isSome then d else d ++ [(k, v)]

/-- Python truthiness of a JSON value (`bool(v)`); a number is falsy when
its mantissa has no non-zero digit. -/
def jsonTruthy : JsonValue → Bool
  | .null => false
  | .bool b => b
  | .num tok =>
    (tok.takeWhile (fun c => !(c = 'e' || c = 'E'))).any
      (fun c => '1' ≤ c && c ≤ '9')
  | .str s => !s.isEmpty
  | .arr items => !items.isEmpty
  | .obj entries => !entries.isEmpty

theorem dGet_dSet_self (k : List Char) (v : JsonValue) (d : JDict) :
    dGet k (dSet k v d) = some v := by
  induction d with
  | nil => simp [dSet, dGet]
  | cons p rest ih =>
    obtain ⟨k', v'⟩ := p
    by_cases h : k' = k
    · simp [dSet, dGet, h]
    · simp [dSet, dGet, h, ih]

theorem dGet_dSet_ne (k k' : List Char) (v : JsonValue) (d : JDict)
    (h : k' ≠ k) : dGet k' (dSet k v d) = dGet k' d := by
  induction d with
  | nil => simp [dSet, dGet, Ne.symm h]
  | cons p rest ih =>
    obtain ⟨k'', v'⟩ := p
    by_cases hk : k'' = k
    · subst hk
      simp [dSet, dGet, Ne.symm h]
    · simp [dSet, dGet, hk, ih]

theorem dSet_self_of_dGet (k : List Char) (v : JsonValue) (d : JDict)
    (h : dGet k d = some v) : dSet k v d = d := by
  induction d with
  | nil => simp [dGet] at h
  | cons p rest ih =>
    obtain ⟨k', v'⟩ := p
    by_cases hk : k' = k
    · rw [dGet, if_pos hk] at h
      injection h with h
      simp [dSet, hk, h]
    · rw [dGet, if_neg hk] at h
      simp [dSet, hk, ih h]

theorem dGet_append_of_isSome (k : List Char) (d1 d2 : JDict)
    (v : JsonValue) (h : dGet k d1 = some v) :
    dGet k (d1 ++ d2) = some v := by
  induction d1 with
  | nil => simp [dGet] at h
  | cons p rest ih =>
    obtain ⟨k', v'⟩ := p
    by_cases hk : k' = k
    · rw [dGet, if_pos hk] at h
      simp [dGet, hk, h]
    · rw [dGet, if_neg hk] at h
      simp [dGet, hk, ih h]

theorem dGet_append_of_none (k : List Char) (d1 d2 : JDict)
    (h : dGet k d1 = none) : dGet k (d1 ++ d2) = dGet k d2 := by
  induction d1 with
  | nil => simp
  | cons p rest ih =>
    obtain ⟨k', v'⟩ := p
    by_cases hk : k' = k
    · rw [dGet, if_pos hk] at h
      simp at h
    · rw [dGet, if_neg hk] at h
      simp [dGet, hk, ih h]

theorem dGet_dSetdefault_isSome (k : List Char) (v : JsonValue) (d : JDict) :
    (dGet k (dSetdefault k v d)).isSome = true := by
  rw [dSetdefault]
  by_cases h : (dGet k d).isSome
  · rw [if_pos h]; exact h
  · rw [if_neg h]
    have hn : dGet k d = none := Option.not_isSome_iff_eq_none.mp h
    rw [dGet_append_of_none k d _ hn]
    simp [dGet]

theorem dGet_dSetdefault_of_isSome (k k' : List Char) (v : JsonValue)
    (d : JDict) (h : (dGet k d).isSome = true) :
    dGet k (dSetdefault k' v d) = dGet k d := by
  rw [dSetdefault]
  split
  · rfl
  · obtain ⟨w, hw⟩ := Option.isSome_iff_exists.mp h
    rw [dGet_append_of_isSome k d _ w hw, hw]

theorem dSetdefault_of_isSome (k : List Char) (v : JsonValue) (d : JDict)
    (h : (dGet k d).isSome = true) : dSetdefault k v d = d := by
  rw [dSetdefault, if_pos h]

theorem dGet_dSet_isSome (k k' : List Char) (v : JsonValue) (d : JDict)
    (h : (dGet k d).isSome = true) :
    (dGet k (dSet k' v d)).isSome = true := by
  by_cases hk : k = k'
  · subst hk
    rw [dGet_dSet_self]
    rfl
  · rw [dGet_dSet_ne k' k v d hk]
    exact h

/-! ## TingwuClient._parse_json_content — strategy dispatch
(src/transcriber/tingwu_client.py, lines 189-243)

`ParsePath` records which extraction strategy the function commits to:
the `Sentences` branch, the `Paragraphs` branch, or the call to
`_recursive_find_text` (covering both its `raw_lines` and `empty`
outcomes).  A non-dict `Transcription` value makes `.get` raise
(`Except.error`). -/

inductive ParsePath where
  | sentences
  | paragraphs
  | recursive
deriving DecidableEq

/-- Python attribute access `.get` on a value that must be a dict. -/
def asObj : JsonValue → Except Unit JDict
  | .obj entries => .ok entries
  | _ => .error ()

/-- The strategy cascade of `_parse_json_content`:
`transcription = data.get("Transcription", data)`, then
`Sentences` if truthy, else `Paragraphs` if truthy, else the recursive
search. -/
def parse_json_content_path (data : JDict) : Except Unit ParsePath :=
  match asObj (dGetD ("Transcription".toList) data (JsonValue.obj data)) with
  | .error e => .error e
  | .ok transcription =>
    if jsonTruthy (dGetD ("Sentences".toList) transcription (JsonValue.arr []))
    then .ok .sentences
    else if jsonTruthy
        (dGetD ("Paragraphs".toList) transcription (JsonValue.arr []))
    then .ok .paragraphs
    else .ok .recursive

/-- C2 counterexample payload: the `Sentences` key exists but holds an
empty list, and a non-empty `Paragraphs` list is present. -/
def c2_payload : JDict :=
  [("Sentences".toList, JsonValue.arr []),
   ("Paragraphs".toList,
     JsonValue.arr [JsonValue.obj [("Words".toList, JsonValue.arr [])]])]

/-- C2 counterexample: a payload whose `Sentences` key exists (bound to an
empty list) is routed to the Paragraphs strategy, because the guard tests
truthiness, not key presence. -/
theorem parse_path_c2_counterexample :
    parse_json_content_path c2_payload = Except.ok ParsePath.paragraphs
      ∧ (dGet ("Sentences".toList) c2_payload).isSome = true :=
  ⟨rfl, rfl⟩

/-- C2 amended: whenever `data.get("Transcription", data)` is a dict whose
`Sentences` entry is truthy (e.g. a non-empty list), the normalizer
commits to the sentence-level strategy; the Paragraphs and recursive
strategies are not invoked. -/
theorem parse_path_sentences (data : JDict) (t : JDict)
    (h1 : dGetD ("Transcription".toList) data (JsonValue.obj data) =
      JsonValue.obj t)
    (h2 : jsonTruthy (dGetD ("Sentences".toList) t (JsonValue.arr [])) =
      true) :
    parse_json_content_path data = Except.ok ParsePath.sentences := by
  rw [parse_json_content_path, h1]
  show (if jsonTruthy (dGetD ("Sentences".toList) t (JsonValue.arr []))
      then Except.ok ParsePath.sentences
      else if jsonTruthy
          (dGetD ("Paragraphs".toList) t (JsonValue.arr []))
      then Except.ok ParsePath.paragraphs
      else Except.ok ParsePath.recursive) = Except.ok ParsePath.sentences
  rw [if_pos h2]

/-- C2 amended witness: a payload with a non-empty `Sentences` list. -/
theorem parse_path_sentences_witness :
    parse_json_content_path [("Sentences".toList, JsonValue.arr [JsonValue.obj []])] =
      Except.ok ParsePath.sentences :=
  parse_path_sentences [("Sentences".toList, JsonValue.arr [JsonValue.obj []])]
    [("Sentences".toList, JsonValue.arr [JsonValue.obj []])] rfl rfl

/-! ## QwenClient._ensure_required_fields
(src/llm_processor/qwen_client.py, lines 399-416) -/

/-- The default title `"视频内容分析"`. -/
def defaultTitle : List Char := "视频内容分析".toList

/-- `if not result.get("title"): result["title"] = video_title or "视频内容分析"`. -/
def title_step (result : JDict) (video_title : List Char) : JDict :=
  if jsonTruthy (dGetD ("title".toList) result JsonValue.null) then result
  else dSet ("title".toList)
    (JsonValue.str (if video_title = [] then defaultTitle else video_title))
    result

/-- `if not result.get("summary"): result["summary"] = transcript[:200] + "..."
if len(transcript) > 200 else transcript`. -/
def summary_step (r : JDict) (transcript : List Char) : JDict :=
  if jsonTruthy (dGetD ("summary".toList) r JsonValue.null) then r
  else dSet ("summary".toList)
    (JsonValue.str
      (if transcript.length > 200 then transcript.take 200 ++ "...".toList
       else transcript)) r

/-- `QwenClient._ensure_required_fields`: backfill `title`, `summary`, then
`setdefault` of `formatted_full_text`, `positions`, `quotes`. -/
def ensure_required_fields (result : JDict)
    (video_title transcript : List Char) : JDict :=
  dSetdefault ("quotes".toList) (JsonValue.arr [])
    (dSetdefault ("positions".toList) (JsonValue.arr [])
      (dSetdefault ("formatted_full_text".toList) (JsonValue.str transcript)
        (summary_step (title_step result video_title) transcript)))

theorem title_step_truthy (result : JDict) (vt : List Char) :
    jsonTruthy (dGetD ("title".toList) (title_step result vt) JsonValue.null)
      = true := by
  rw [title_step]
  split
  · assumption
  · rw [dGetD, dGet_dSet_self, Option.getD_some]
    show (!(if vt = [] then defaultTitle else vt).isEmpty) = true
    split
    · decide
    · rename_i hvt
      simp [List.isEmpty_iff, hvt]

theorem dGet_summary_step_ne (r : JDict) (tr k : List Char)
    (h : k ≠ "summary".toList) :
    dGet k (summary_step r tr) = dGet k r := by
  rw [summary_step]
  split
  · rfl
  · exact dGet_dSet_ne _ _ _ _ h

theorem truthy_isSome (k : List Char) (d : JDict)
    (h : jsonTruthy (dGetD k d JsonValue.null) = true) :
    (dGet k d).isSome = true := by
  rw [dGetD] at h
  cases hd : dGet k d with
  | none => rw [hd] at h; simp [jsonTruthy] at h
  | some v => rfl

/-- Lookup through the three trailing `setdefault` layers of
`_ensure_required_fields`, for a key already present. -/
theorem dGet_sd3 (k : List Char) (d : JDict) (tr : List Char)
    (h : (dGet k d).isSome = true) :
    dGet k
        (dSetdefault ("quotes".toList) (JsonValue.arr [])
          (dSetdefault ("positions".toList) (JsonValue.arr [])
            (dSetdefault ("formatted_full_text".toList) (JsonValue.str tr) d)))
      = dGet k d := by
  have h1 := dGet_dSetdefault_of_isSome k ("formatted_full_text".toList)
    (JsonValue.str tr) d h
  have h1s : (dGet k (dSetdefault ("formatted_full_text".toList)
      (JsonValue.str tr) d)).isSome = true := by rw [h1]; exact h
  have h2 := dGet_dSetdefault_of_isSome k ("positions".toList)
    (JsonValue.arr []) _ h1s
  have h2s : (dGet k (dSetdefault ("positions".toList) (JsonValue.arr [])
      (dSetdefault ("formatted_full_text".toList) (JsonValue.str tr) d))).isSome
      = true := by rw [h2]; exact h1s
  have h3 := dGet_dSetdefault_of_isSome k ("quotes".toList)
    (JsonValue.arr []) _ h2s
  rw [h3, h2, h1]

theorem summary_step_isSome (r : JDict) (tr : List Char) :
    (dGet ("summary".toList) (summary_step r tr)).isSome = true := by
  rw [summary_step]
  split
  · exact truthy_isSome _ _ (by assumption)
  · rw [dGet_dSet_self]
    rfl

theorem dGet_ensure_title (result : JDict) (vt tr : List Char) :
    dGet ("title".toList) (ensure_required_fields result vt tr) =
      dGet ("title".toList) (title_step result vt) := by
  rw [ensure_required_fields]
  have h1 : dGet ("title".toList)
      (summary_step (title_step result vt) tr) =
      dGet ("title".toList) (title_step result vt) :=
    dGet_summary_step_ne _ _ _ (by decide)
  have hs : (dGet ("title".toList)
      (summary_step (title_step result vt) tr)).isSome = true := by
    rw [h1]
    exact truthy_isSome _ _ (title_step_truthy result vt)
  rw [dGet_sd3 _ _ _ hs, h1]

theorem dGet_ensure_summary (result : JDict) (vt tr : List Char) :
    dGet ("summary".toList) (ensure_required_fields result vt tr) =
      dGet ("summary".toList)
        (summary_step (title_step result vt) tr) := by
  rw [ensure_required_fields]
  exact dGet_sd3 _ _ _ (summary_step_isSome _ _)

/-- `_ensure_required_fields` is the identity on a dict that its own steps
leave unchanged. -/
theorem ensure_fixed (d : JDict) (vt tr : List Char)
    (h1 : title_step d vt = d) (h2 : summary_step d tr = d)
    (hf : (dGet ("formatted_full_text".toList) d).isSome = true)
    (hp : (dGet ("positions".toList) d).isSome = true)
    (hq : (dGet ("quotes".toList) d).isSome = true) :
    ensure_required_fields d vt tr = d := by
  rw [ensure_required_fields, h1, h2, dSetdefault_of_isSome _ _ _ hf,
    dSetdefault_of_isSome _ _ _ hp, dSetdefault_of_isSome _ _ _ hq]

/-- C9: field completion is idempotent — a second application of
`_ensure_required_fields` with the same title hint and transcript changes
nothing. -/
theorem ensure_required_fields_idem (result : JDict) (vt tr : List Char) :
    ensure_required_fields (ensure_required_fields result vt tr) vt tr =
      ensure_required_fields result vt tr := by
  apply ensure_fixed
  · -- title already truthy after the first pass
    rw [title_step, if_pos]
    rw [dGetD, dGet_ensure_title, ← dGetD]
    exact title_step_truthy result vt
  · -- summary step is the identity on the first pass's output
    rw [summary_step]
    by_cases c2 : jsonTruthy (dGetD ("summary".toList)
        (title_step result vt) JsonValue.null) = true
    · have hsk : summary_step (title_step result vt) tr =
          title_step result vt := by rw [summary_step, if_pos c2]
      rw [if_pos]
      rw [dGetD, dGet_ensure_summary, hsk, ← dGetD]
      exact c2
    · have hset : summary_step (title_step result vt) tr =
          dSet ("summary".toList)
            (JsonValue.str
              (if tr.length > 200 then tr.take 200 ++ "...".toList else tr))
            (title_step result vt) := by
        rw [summary_step, if_neg c2]
      have hgetR : dGet ("summary".toList)
          (ensure_required_fields result vt tr) =
          some (JsonValue.str
            (if tr.length > 200 then tr.take 200 ++ "...".toList else tr)) := by
        rw [dGet_ensure_summary, hset, dGet_dSet_self]
      split
      · rfl
      · exact dSet_self_of_dGet _ _ _ hgetR
  · rw [ensure_required_fields]
    have hbase := dGet_dSetdefault_isSome ("formatted_full_text".toList)
      (JsonValue.str tr) (summary_step (title_step result vt) tr)
    have hstep := dGet_dSetdefault_of_isSome ("formatted_full_text".toList)
      ("positions".toList) (JsonValue.arr []) _ hbase
    have hstep2 : (dGet ("formatted_full_text".toList)
        (dSetdefault ("positions".toList) (JsonValue.arr [])
          (dSetdefault ("formatted_full_text".toList) (JsonValue.str tr)
            (summary_step (title_step result vt) tr)))).isSome = true := by
      rw [hstep]; exact hbase
    have hstep3 := dGet_dSetdefault_of_isSome ("formatted_full_text".toList)
      ("quotes".toList) (JsonValue.arr []) _ hstep2
    rw [hstep3]
    exact hstep2
  · rw [ensure_required_fields]
    have hbase := dGet_dSetdefault_isSome ("positions".toList)
      (JsonValue.arr [])
      (dSetdefault ("formatted_full_text".toList) (JsonValue.str tr)
        (summary_step (title_step result vt) tr))
    have hstep := dGet_dSetdefault_of_isSome ("positions".toList)
      ("quotes".toList) (JsonValue.arr []) _ hbase
    rw [hstep]
    exact hbase
  · rw [ensure_required_fields]
    exact dGet_dSetdefault_isSome ("quotes".toList) (JsonValue.arr []) _

/-! ## QwenClient._extract_json_substring
(src/llm_processor/qwen_client.py, lines 181-229)

Single forward scan from the first `{` or `[`, tracking string-literal
state with escapes and a stack of open brackets; `acc` holds the consumed
characters in reverse, so the returned region is `(c :: acc).reverse`. -/

/-- The suffix of `content` starting at the first `{` or `[` (the
`start_candidates` loop), or `none`. -/
def dropUntilOpen : List Char → Option (List Char)
  | [] => none
  | c :: cs => if c = '{' ∨ c = '[' then some (c :: cs) else dropUntilOpen cs

/-- The scanning loop of `_extract_json_substring`; `closing` is the close
bracket matching the first opening; the stack stores open brackets. -/
def scanSrc (closing : Char) : List Char → List Char → Bool → Bool →
    List Char → Option (List Char)
  | [], _, _, _, _ => none
  | c :: rest, acc, inStr, esc, stack =>
    if inStr then
      if esc then scanSrc closing rest (c :: acc) true false stack
      else if c = '\\' then scanSrc closing rest (c :: acc) true true stack
      else if c = '"' then scanSrc closing rest (c :: acc) false false stack
      else scanSrc closing rest (c :: acc) true false stack
    else if c = '"' then scanSrc closing rest (c :: acc) true false stack
    else if c = '{' ∨ c = '[' then
      scanSrc closing rest (c :: acc) false false (c :: stack)
    else if c = '}' ∨ c = ']' then
      match stack with
      | [] => scanSrc closing rest (c :: acc) false false []
      | last :: stack' =>
        if (last = '{' ∧ c ≠ '}') ∨ (last = '[' ∧ c ≠ ']') then none
        else if stack' = [] ∧ c = closing then
          some (pyStrip (c :: acc).reverse)
        else scanSrc closing rest (c :: acc) false false stack'
    else scanSrc closing rest (c :: acc) false false stack

/-- `QwenClient._extract_json_substring`. -/
def extract_json_substring (content : List Char) : Option (List Char) :=
  match dropUntilOpen content with
  | none => none
  | some suffix =>
    scanSrc (if suffix.head? = some '{' then '}' else ']') suffix [] false
      false []

/-! Spec-side definition (BracketMatcher contract, spec section 4.1):
find the first `{` or `[`, scan forward tracking string/escape state and a
stack of still-open brackets, return the substring through the position
where the stack first returns to empty on a matching close; `None` when
there is no opening bracket, the content ends before the stack empties, or
a mismatched close type is found.  The stack records the close bracket
each open bracket expects. -/

/-- Spec: locate the first opening bracket. -/
def specFirstOpen : List Char → Option (List Char)
  | [] => none
  | c :: cs =>
    if c = '{' ∨ c = '[' then some (c :: cs) else specFirstOpen cs

/-- Spec: forward scan with a stack of expected closing brackets. -/
def scanSpec : List Char → List Char → Bool → Bool → List Char →
    Option (List Char)
  | [], _, _, _, _ => none
  | c :: rest, acc, inStr, esc, closers =>
    if inStr then
      if esc then scanSpec rest (c :: acc) true false closers
      else if c = '\\' then scanSpec rest (c :: acc) true true closers
      else if c = '"' then scanSpec rest (c :: acc) false false closers
      else scanSpec rest (c :: acc) true false closers
    else if c = '"' then scanSpec rest (c :: acc) true false closers
    else if c = '{' then scanSpec rest (c :: acc) false false ('}' :: closers)
    else if c = '[' then scanSpec rest (c :: acc) false false (']' :: closers)
    else if c = '}' ∨ c = ']' then
      match closers with
      | [] => scanSpec rest (c :: acc) false false []
      | expected :: closers' =>
        if c ≠ expected then none
        else if closers' = [] then some (c :: acc).reverse
        else scanSpec rest (c :: acc) false false closers'
    else scanSpec rest (c :: acc) false false closers

/-- Spec: the balanced-region extractor described in section 4.1. -/
def specExtractBalanced (content : List Char) : Option (List Char) :=
  match specFirstOpen content with
  | none => none
  | some suffix => scanSpec suffix [] false false []

/-- The close bracket matching an open bracket. -/
def closeOf (c : Char) : Char := if c = '{' then '}' else ']'

theorem dropUntilOpen_eq_specFirstOpen (content : List Char) :
    dropUntilOpen content = specFirstOpen content := by
  induction content with
  | nil => rfl
  | cons c cs ih =>
    rw [dropUntilOpen, specFirstOpen]
    split
    · rfl
    · exact ih

theorem specFirstOpen_shape (content suffix : List Char)
    (h : specFirstOpen content = some suffix) :
    ∃ c cs, suffix = c :: cs ∧ (c = '{' ∨ c = '[') := by
  induction content with
  | nil => simp [specFirstOpen] at h
  | cons c cs ih =>
    rw [specFirstOpen] at h
    split at h
    · exact ⟨c, cs, (Option.some_injective _ h).symm, by assumption⟩
    · exact ih h

theorem dropWhile_eq_self_of_head (l : List Char) (a : Char)
    (h : l.head? = some a) (ha : pyIsSpace a = false) :
    l.dropWhile pyIsSpace = l := by
  cases l with
  | nil => simp at h
  | cons x xs =>
    injection h with h
    subst h
    simp [List.dropWhile, ha]

theorem pyStrip_eq_self (l : List Char) (a b : Char)
    (h1 : l.head? = some a) (ha : pyIsSpace a = false)
    (h2 : l.getLast? = some b) (hb : pyIsSpace b = false) :
    pyStrip l = l := by
  rw [pyStrip, dropWhile_eq_self_of_head l a h1 ha]
  rw [dropWhile_eq_self_of_head l.reverse b (by rw [List.head?_reverse]; exact h2) hb]
  rw [List.reverse_reverse]

theorem getLast?_cons_of_ne_nil (c : Char) (l : List Char) (h : l ≠ []) :
    (c :: l).getLast? = l.getLast? := by
  cases l with
  | nil => exact absurd rfl h
  | cons x xs => simp [List.getLast?_cons_cons]

theorem scanSrc_cons (closing c : Char) (rest acc : List Char)
    (inStr esc : Bool) (stack : List Char) :
    scanSrc closing (c :: rest) acc inStr esc stack =
      (if inStr then
        if esc then scanSrc closing rest (c :: acc) true false stack
        else if c = '\\' then scanSrc closing rest (c :: acc) true true stack
        else if c = '"' then scanSrc closing rest (c :: acc) false false stack
        else scanSrc closing rest (c :: acc) true false stack
      else if c = '"' then scanSrc closing rest (c :: acc) true false stack
      else if c = '{' ∨ c = '[' then
        scanSrc closing rest (c :: acc) false false (c :: stack)
      else if c = '}' ∨ c = ']' then
        match stack with
        | [] => scanSrc closing rest (c :: acc) false false []
        | last :: stack' =>
          if (last = '{' ∧ c ≠ '}') ∨ (last = '[' ∧ c ≠ ']') then none
          else if stack' = [] ∧ c = closing then
            some (pyStrip (c :: acc).reverse)
          else scanSrc closing rest (c :: acc) false false stack'
      else scanSrc closing rest (c :: acc) false false stack) := by
  rw [scanSrc.eq_def]

theorem scanSpec_cons (c : Char) (rest acc : List Char) (inStr esc : Bool)
    (closers : List Char) :
    scanSpec (c :: rest) acc inStr esc closers =
      (if inStr then
        if esc then scanSpec rest (c :: acc) true false closers
        else if c = '\\' then scanSpec rest (c :: acc) true true closers
        else if c = '"' then scanSpec rest (c :: acc) false false closers
        else scanSpec rest (c :: acc) true false closers
      else if c = '"' then scanSpec rest (c :: acc) true false closers
      else if c = '{' then scanSpec rest (c :: acc) false false ('}' :: closers)
      else if c = '[' then scanSpec rest (c :: acc) false false (']' :: closers)
      else if c = '}' ∨ c = ']' then
        match closers with
        | [] => scanSpec rest (c :: acc) false false []
        | expected :: closers' =>
          if c ≠ expected then none
          else if closers' = [] then some (c :: acc).reverse
          else scanSpec rest (c :: acc) false false closers'
      else scanSpec rest (c :: acc) false false closers) := by
  rw [scanSpec.eq_def]

/-- Core refinement: with a non-empty source stack of open brackets whose
bottom is the first opening, and the consumed text ending (in reverse) at
that opening, the source scan and the spec scan agree, where the spec
stack holds the matching close brackets. -/
theorem scan_agree (opening : Char) (hop : opening = '{' ∨ opening = '[')
    (remaining : List Char) :
    ∀ (acc : List Char) (inStr esc : Bool) (stackSrc : List Char),
      stackSrc ≠ [] → stackSrc.getLast? = some opening →
      acc.getLast? = some opening →
      (∀ b ∈ stackSrc, b = '{' ∨ b = '[') →
      scanSrc (closeOf opening) remaining acc inStr esc stackSrc =
        scanSpec remaining acc inStr esc (stackSrc.map closeOf) := by
  induction remaining with
  | nil =>
    intro acc inStr esc stackSrc _ _ _ _
    rfl
  | cons c rest ih =>
    intro acc inStr esc stackSrc hne hbot hacc hmem
    have haccne : acc ≠ [] := by
      intro h
      rw [h] at hacc
      simp at hacc
    have hacc' : (c :: acc).getLast? = some opening := by
      rw [getLast?_cons_of_ne_nil c acc haccne]
      exact hacc
    rw [scanSrc_cons, scanSpec_cons]
    have e1 : ¬ (false = true) := by decide
    cases inStr with
    | true =>
      rw [if_pos rfl, if_pos rfl]
      cases esc with
      | true =>
        rw [if_pos rfl, if_pos rfl]
        exact ih (c :: acc) true false stackSrc hne hbot hacc' hmem
      | false =>
        rw [if_neg e1, if_neg e1]
        by_cases hbs : c = '\\'
        · rw [if_pos hbs, if_pos hbs]
          exact ih (c :: acc) true true stackSrc hne hbot hacc' hmem
        · rw [if_neg hbs, if_neg hbs]
          by_cases hq : c = '"'
          · rw [if_pos hq, if_pos hq]
            exact ih (c :: acc) false false stackSrc hne hbot hacc' hmem
          · rw [if_neg hq, if_neg hq]
            exact ih (c :: acc) true false stackSrc hne hbot hacc' hmem
    | false =>
      rw [if_neg e1, if_neg e1]
      by_cases hq : c = '"'
      · rw [if_pos hq, if_pos hq]
        exact ih (c :: acc) true false stackSrc hne hbot hacc' hmem
      · rw [if_neg hq, if_neg hq]
        by_cases hopenc : c = '{' ∨ c = '['
        · rw [if_pos hopenc]
          have hrec := ih (c :: acc) false false (c :: stackSrc) (by simp)
            (by rw [getLast?_cons_of_ne_nil c stackSrc hne]; exact hbot)
            hacc'
            (by
              intro b hb
              rcases List.mem_cons.mp hb with h | h
              · subst h; exact hopenc
              · exact hmem b h)
          rcases hopenc with hc | hc
          · subst hc
            rw [if_pos rfl, hrec]
            rfl
          · subst hc
            rw [if_neg (by decide), if_pos rfl, hrec]
            rfl
        · rw [if_neg hopenc]
          have hnotopen1 : ¬ c = '{' := fun h => hopenc (Or.inl h)
          have hnotopen2 : ¬ c = '[' := fun h => hopenc (Or.inr h)
          rw [if_neg hnotopen1, if_neg hnotopen2]
          by_cases hclose : c = '}' ∨ c = ']'
          · rw [if_pos hclose, if_pos hclose]
            cases stackSrc with
            | nil => exact absurd rfl hne
            | cons last stack' =>
              have hlast : last = '{' ∨ last = '[' :=
                hmem last (List.mem_cons_self last stack')
              rw [List.map_cons]
              show (if (last = '{' ∧ c ≠ '}') ∨ (last = '[' ∧ c ≠ ']')
                  then none
                  else if stack' = [] ∧ c = closeOf opening then
                    some (pyStrip (c :: acc).reverse)
                  else scanSrc (closeOf opening) rest (c :: acc) false false
                    stack') =
                (if c ≠ closeOf last then none
                  else if stack'.map closeOf = [] then
                    some (c :: acc).reverse
                  else scanSpec rest (c :: acc) false false
                    (stack'.map closeOf))
              by_cases hmis : (last = '{' ∧ c ≠ '}') ∨ (last = '[' ∧ c ≠ ']')
              · rw [if_pos hmis]
                have hcne : c ≠ closeOf last := by
                  rcases hmis with ⟨h1, h2⟩ | ⟨h1, h2⟩
                  · rw [h1, closeOf, if_pos rfl]; exact h2
                  · rw [h1, closeOf, if_neg (by decide)]; exact h2
                rw [if_pos hcne]
              · rw [if_neg hmis]
                have hceq : c = closeOf last := by
                  rcases hlast with h1 | h1
                  · subst h1
                    rw [closeOf, if_pos rfl]
                    by_contra hcc
                    exact hmis (Or.inl ⟨rfl, hcc⟩)
                  · subst h1
                    rw [closeOf, if_neg (by decide)]
                    by_contra hcc
                    exact hmis (Or.inr ⟨rfl, hcc⟩)
                rw [if_neg (show ¬(c ≠ closeOf last) from fun hh => hh hceq)]
                by_cases hempty : stack' = []
                · subst hempty
                  have hlo : last = opening := by
                    simpa [List.getLast?] using hbot
                  subst hlo
                  rw [if_pos (show ([] : List Char) = [] ∧ c = closeOf last
                    from ⟨rfl, hceq⟩)]
                  rw [if_pos (show List.map closeOf ([] : List Char) = []
                    from rfl)]
                  congr 1
                  refine pyStrip_eq_self _ last c ?_ ?_ ?_ ?_
                  · rw [List.head?_reverse]
                    exact hacc'
                  · rcases hop with h | h <;> subst h <;> decide
                  · rw [List.getLast?_reverse]
                    rfl
                  · rcases hclose with h | h <;> subst h <;> decide
                · have hbot' : stack'.getLast? = some opening := by
                    rw [getLast?_cons_of_ne_nil last stack' hempty] at hbot
                    exact hbot
                  rw [if_neg (show ¬(stack' = [] ∧ c = closeOf opening)
                    from fun hcontra => hempty hcontra.1)]
                  rw [if_neg (show ¬(stack'.map closeOf = []) by
                    simp [hempty])]
                  exact ih (c :: acc) false false stack' hempty hbot' hacc'
                    (fun b hb => hmem b (List.mem_cons_of_mem last hb))
          · rw [if_neg hclose, if_neg hclose]
            exact ih (c :: acc) false false stackSrc hne hbot hacc' hmem

/-- C6: the source bracket matcher coincides with the spec's
balanced-region contract on every input string. -/
theorem extract_json_substring_spec (content : List Char) :
    extract_json_substring content = specExtractBalanced content := by
  rw [extract_json_substring, specExtractBalanced,
    dropUntilOpen_eq_specFirstOpen]
  cases h : specFirstOpen content with
  | none => rfl
  | some suffix =>
    obtain ⟨c, cs, rfl, hop⟩ := specFirstOpen_shape content suffix h
    have hstep := scan_agree c hop cs [c] false false [c] (by simp)
      (by simp [List.getLast?]) (by simp [List.getLast?])
      (by intro b hb; simp at hb; subst hb; exact hop)
    have e1 : ¬ (false = true) := by decide
    rcases hop with h1 | h1
    · subst h1
      show scanSrc (if (('{' :: cs).head? = some '{') then '}' else ']')
          ('{' :: cs) [] false false [] = scanSpec ('{' :: cs) [] false false []
      rw [if_pos (by rfl)]
      rw [scanSrc_cons, scanSpec_cons]
      rw [if_neg e1, if_neg (show ¬('{' = '"') by decide),
        if_pos (show ('{' = '{' ∨ '{' = '[') from Or.inl rfl),
        if_neg e1, if_neg (show ¬('{' = '"') by decide),
        if_pos (show '{' = '{' from rfl)]
      have hcl : closeOf '{' = '}' := by decide
      rw [← hcl]
      simpa using hstep
    · subst h1
      show scanSrc (if (('[' :: cs).head? = some '{') then '}' else ']')
          ('[' :: cs) [] false false [] = scanSpec ('[' :: cs) [] false false []
      rw [if_neg (show ¬(('[' :: cs).head? = some '{') by simp)]
      rw [scanSrc_cons, scanSpec_cons]
      rw [if_neg e1, if_neg (show ¬('[' = '"') by decide),
        if_pos (show ('[' = '{' ∨ '[' = '[') from Or.inr rfl),
        if_neg e1, if_neg (show ¬('[' = '"') by decide),
        if_neg (show ¬('[' = '{') by decide),
        if_pos (show '[' = '[' from rfl)]
      have hcl : closeOf '[' = ']' := by decide
      rw [← hcl]
      simpa using hstep

/-! ## Model of `json.loads` (strict CPython JSON decoder)

Recursive-descent parser over `List Char` with a fuel argument (fuel
`2·|s| + 4` is ample since every recursion step consumes input).  Numbers
keep their token text; `\uXXXX` escapes map through `Char.ofNat`. -/

def jsonWs (c : Char) : Bool := c = ' ' || c = '\t' || c = '\n' || c = '\r'

def skipWs (s : List Char) : List Char := s.dropWhile jsonWs

def jsonErrValue : List Char := "Expecting value".toList
def jsonErrExtra : List Char := "Extra data".toList
def jsonErrProperty : List Char :=
  "Expecting property name enclosed in double quotes".toList
def jsonErrColon : List Char := "Expecting ':' delimiter".toList
def jsonErrDelim : List Char := "Expecting ',' delimiter".toList
def jsonErrUnterminated : List Char :=
  "Unterminated string starting at".toList
def jsonErrEscape : List Char := "Invalid \\escape".toList
def jsonErrControl : List Char := "Invalid control character".toList
def jsonErrFuel : List Char := "Depth limit exceeded".toList

def isHexDigit (c : Char) : Bool :=
  c.isDigit || ('a' ≤ c && c ≤ 'f') || ('A' ≤ c && c ≤ 'F')

def hexVal (c : Char) : Nat :=
  if c.isDigit then c.toNat - 48
  else if 'a' ≤ c && c ≤ 'f' then c.toNat - 87
  else c.toNat - 55

def escapeChar (e : Char) : Option Char :=
  if e = '"' then some '"'
  else if e = '\\' then some '\\'
  else if e = '/' then some '/'
  else if e = 'b' then some '\x08'
  else if e = 'f' then some '\x0c'
  else if e = 'n' then some '\n'
  else if e = 'r' then some '\r'
  else if e = 't' then some '\t'
  else none

/-- Parse a JSON string body after the opening quote; returns the decoded
characters and the remainder after the closing quote. -/
def parseStringBody : List Char → Except (List Char) (List Char × List Char)
  | [] => .error jsonErrUnterminated
  | c :: rest =>
    if c = '"' then .ok ([], rest)
    else if c = '\\' then
      match rest with
      | [] => .error jsonErrUnterminated
      | e :: rest1 =>
        if e = 'u' then
          match rest1 with
          | h1 :: h2 :: h3 :: h4 :: rest2 =>
            if isHexDigit h1 && isHexDigit h2 && isHexDigit h3 &&
                isHexDigit h4 then
              match parseStringBody rest2 with
              | .ok (cs, r) =>
                .ok (Char.ofNat
                  (hexVal h1 * 4096 + hexVal h2 * 256 + hexVal h3 * 16 +
                    hexVal h4) :: cs, r)
              | .error err => .error err
            else .error jsonErrEscape
          | _ => .error jsonErrEscape
        else
          match escapeChar e with
          | some ec =>
            match parseStringBody rest1 with
            | .ok (cs, r) => .ok (ec :: cs, r)
            | .error err => .error err
          | none => .error jsonErrEscape
    else if c.toNat < 32 then .error jsonErrControl
    else
      match parseStringBody rest with
      | .ok (cs, r) => .ok (c :: cs, r)
      | .error err => .error err

/-- Parse a JSON number token (`-?(0|[1-9]\d*)(\.\d+)?([eE][+-]?\d+)?`). -/
def parseNumber (s : List Char) : Except (List Char) (List Char × List Char) :=
  let signed : List Char × List Char :=
    match s with
    | '-' :: r => (['-'], r)
    | _ => ([], s)
  match signed.2 with
  | [] => .error jsonErrValue
  | c :: r1 =>
    if c = '0' then numTail (signed.1 ++ ['0']) r1
    else if c.isDigit then
      numTail (signed.1 ++ c :: r1.takeWhile Char.isDigit)
        (r1.dropWhile Char.isDigit)
    else .error jsonErrValue
where
  /-- Optional fraction and exponent after the integer part. -/
  numTail (intPart : List Char) (rest : List Char) :
      Except (List Char) (List Char × List Char) :=
    let fracStep : Except (List Char) (List Char × List Char) :=
      match rest with
      | '.' :: r2 =>
        match r2.takeWhile Char.isDigit with
        | [] => .error jsonErrValue
        | ds => .ok (intPart ++ '.' :: ds, r2.dropWhile Char.isDigit)
      | _ => .ok (intPart, rest)
    match fracStep with
    | .error e => .error e
    | .ok (tok, r3) =>
      match r3 with
      | e :: r4 =>
        if e = 'e' || e = 'E' then
          let signedExp : List Char × List Char :=
            match r4 with
            | '+' :: r5 => (['+'], r5)
            | '-' :: r5 => (['-'], r5)
            | _ => ([], r4)
          match signedExp.2.takeWhile Char.isDigit with
          | [] => .error jsonErrValue
          | ds => .ok (tok ++ e :: signedExp.1 ++ ds,
              signedExp.2.dropWhile Char.isDigit)
        else .ok (tok, r3)
      | [] => .ok (tok, r3)

mutual

def parseValue : Nat → List Char → Except (List Char) (JsonValue × List Char)
  | 0, _ => .error jsonErrFuel
  | fuel + 1, s =>
    match s with
    | [] => .error jsonErrValue
    | '{' :: rest => parseObjBody fuel (skipWs rest) [] true
    | '[' :: rest => parseArrBody fuel (skipWs rest) [] true
    | '"' :: rest =>
      match parseStringBody rest with
      | .ok (cs, r) => .ok (.str cs, r)
      | .error e => .error e
    | 't' :: 'r' :: 'u' :: 'e' :: rest => .ok (.bool true, rest)
    | 'f' :: 'a' :: 'l' :: 's' :: 'e' :: rest => .ok (.bool false, rest)
    | 'n' :: 'u' :: 'l' :: 'l' :: rest => .ok (.null, rest)
    | c :: rest =>
      if c = '-' || c.isDigit then
        match parseNumber (c :: rest) with
        | .ok (tok, r) => .ok (.num tok, r)
        | .error e => .error e
      else .error jsonErrValue

def parseObjBody : Nat → List Char → JDict → Bool →
    Except (List Char) (JsonValue × List Char)
  | 0, _, _, _ => .error jsonErrFuel
  | fuel + 1, s, acc, first =>
    match s with
    | '}' :: rest =>
      if first then .ok (.obj acc, rest) else .error jsonErrProperty
    | '"' :: rest =>
      match parseStringBody rest with
      | .error e => .error e
      | .ok (key, r1) =>
        match skipWs r1 with
        | ':' :: r2 =>
          match parseValue fuel (skipWs r2) with
          | .error e => .error e
          | .ok (v, r3) =>
            match skipWs r3 with
            | '}' :: r4 => .ok (.obj (dSet key v acc), r4)
            | ',' :: r4 => parseObjBody fuel (skipWs r4) (dSet key v acc) false
            | _ => .error jsonErrDelim
        | _ => .error jsonErrColon
    | _ => .error jsonErrProperty

def parseArrBody : Nat → List Char → List JsonValue → Bool →
    Except (List Char) (JsonValue × List Char)
  | 0, _, _, _ => .error jsonErrFuel
  | fuel + 1, s, acc, first =>
    match s with
    | ']' :: rest =>
      if first then .ok (.arr acc.reverse, rest) else .error jsonErrValue
    | _ =>
      match parseValue fuel s with
      | .error e => .error e
      | .ok (v, r1) =>
        match skipWs r1 with
        | ']' :: r2 => .ok (.arr (v :: acc).reverse, r2)
        | ',' :: r2 => parseArrBody fuel (skipWs r2) (v :: acc) false
        | _ => .error jsonErrDelim

end

/-- `json.loads`: parse one value, then require only whitespace after. -/
def json_loads (s : List Char) : Except (List Char) JsonValue :=
  match parseValue (2 * s.length + 4) (skipWs s) with
  | .error e => .error e
  | .ok (v, rest) => if skipWs rest = [] then .ok v else .error jsonErrExtra

/-! ## Regex substitutions used by `_clean_and_parse_json` -/

/-- Case-insensitive literal-prefix match; returns the remainder. -/
def matchCI : List Char → List Char → Option (List Char)
  | [], s => some s
  | _ :: _, [] => none
  | p :: ps, c :: cs => if c.toLower = p.toLower then matchCI ps cs else none

/-- Case-sensitive literal-prefix match; returns the remainder. -/
def matchLit : List Char → List Char → Option (List Char)
  | [], s => some s
  | _ :: _, [] => none
  | p :: ps, c :: cs => if c = p then matchLit ps cs else none

/-- The literal part of the fenced-JSON pattern: three backquotes then
`json`. -/
def fenceJsonPat : List Char := '\x60' :: '\x60' :: '\x60' :: "json".toList

/-- The bare fence pattern: three backquotes. -/
def fencePat : List Char := ['\x60', '\x60', '\x60']

/-- Scanner for `re.sub(r"...json\s*", "", content, flags=IGNORECASE)`
over the fenced-JSON pattern: drop each match (pattern text plus trailing
whitespace) and continue after it.  The fuel bounds the iteration count;
one unit per step suffices since every step consumes input. -/
def subFenceJsonGo : Nat → List Char → List Char
  | 0, s => s
  | _, [] => []
  | fuel + 1, c :: cs =>
    match matchCI fenceJsonPat (c :: cs) with
    | some rest => subFenceJsonGo fuel (rest.dropWhile pyIsSpace)
    | none => c :: subFenceJsonGo fuel cs

/-- Python `re.sub(r"...json\s*", "", content, flags=IGNORECASE)`. -/
def subFenceJson (s : List Char) : List Char := subFenceJsonGo (s.length + 1) s

/-- Scanner for `re.sub(r"...\s*", "", content)` over the bare fence. -/
def subFenceGo : Nat → List Char → List Char
  | 0, s => s
  | _, [] => []
  | fuel + 1, c :: cs =>
    match matchLit fencePat (c :: cs) with
    | some rest => subFenceGo fuel (rest.dropWhile pyIsSpace)
    | none => c :: subFenceGo fuel cs

/-- Python `re.sub(r"...\s*", "", content)` over the bare fence pattern. -/
def subFence (s : List Char) : List Char := subFenceGo (s.length + 1) s

/-- After a comma: whitespace then the close bracket; returns the
remainder after the bracket when the regex `,\s*X` matches. -/
def afterWsClose (close : Char) (s : List Char) : Option (List Char) :=
  match s.dropWhile pyIsSpace with
  | c :: r => if c = close then some r else none
  | [] => none

/-- Scanner for `re.sub(r",\s*X", "X", s)`; fuel as above. -/
def subCommaCloseGo (close : Char) : Nat → List Char → List Char
  | 0, s => s
  | _, [] => []
  | fuel + 1, c :: cs =>
    if c = ',' then
      match afterWsClose close cs with
      | some rest => close :: subCommaCloseGo close fuel rest
      | none => c :: subCommaCloseGo close fuel cs
    else c :: subCommaCloseGo close fuel cs

/-- Python `re.sub(r",\s*X", "X", s)` for a close bracket `X`. -/
def subCommaClose (close : Char) (s : List Char) : List Char :=
  subCommaCloseGo close (s.length + 1) s

/-- Python `re.sub(r"[\x00-\x08\x0B-\x1F]", "", s)`. -/
def stripCtrl (s : List Char) : List Char :=
  s.filter (fun c => !(c.toNat ≤ 8 || (11 ≤ c.toNat && c.toNat ≤ 31)))

/-! ## QwenClient._clean_and_parse_json
(src/llm_processor/qwen_client.py, lines 129-179) -/

/-- The `_truncate` helper: head 800 and tail 800 with an elision marker
when the text is longer than 1600 characters. -/
def truncateHeadTail (s : List Char) : List Char :=
  if s.length ≤ 1600 then s
  else s.take 800 ++ ('\n' :: '.' :: '.' :: '.' :: '\n' :: []) ++
    s.drop (s.length - 800)

/-- The error dictionary returned when every parse attempt fails. -/
def errorEnvelope (content e : List Char) : JsonValue :=
  .obj [("error".toList, .str "Failed to parse JSON".toList),
    ("raw_content_truncated".toList, .str (truncateHeadTail content)),
    ("parse_error".toList, .str e)]

/-- Recognizer for the error envelope shape: a mapping with exactly the
keys `error`, `raw_content_truncated`, `parse_error`. -/
def isErrorEnvelope : JsonValue → Bool
  | .obj entries =>
    decide (entries.map Prod.fst =
      ["error".toList, "raw_content_truncated".toList, "parse_error".toList])
  | _ => false

/-- The final repair attempt on the cleaned content (trailing-comma and
control-character fixes), ending in the error envelope. -/
def finalFix (content : List Char) : JsonValue :=
  match json_loads
      (stripCtrl (subCommaClose ']' (subCommaClose '}' content))) with
  | .ok v => v
  | .error e => errorEnvelope content e

/-- The block guarded by `if extracted:`: parse the extracted substring,
then its repaired form; on failure fall through to the final attempt on
the whole cleaned content. -/
def innerParse (content extracted : List Char) : JsonValue :=
  match json_loads extracted with
  | .ok v => v
  | .error _ =>
    match json_loads (stripCtrl (subCommaClose ']'
        (subCommaClose '}' extracted))) with
    | .ok v => v
    | .error _ => finalFix content

/-- The cascade of `_clean_and_parse_json` after fence stripping:
direct parse; parse of the extracted balanced substring; repaired
substring; repaired whole content; error envelope. -/
def cleanParseCore (content : List Char) : JsonValue :=
  match json_loads content with
  | .ok v => v
  | .error _ =>
    match extract_json_substring content with
    | some extracted =>
      if extracted = [] then finalFix content
      else innerParse content extracted
    | none => finalFix content

/-- `QwenClient._clean_and_parse_json`. -/
def clean_and_parse_json (content : List Char) : JsonValue :=
  cleanParseCore (pyStrip (subFence (subFenceJson content)))

theorem isErrorEnvelope_errorEnvelope (content e : List Char) :
    isErrorEnvelope (errorEnvelope content e) = true := by
  rw [errorEnvelope, isErrorEnvelope]
  rw [decide_eq_true_eq]
  rfl

theorem finalFix_total (content : List Char) :
    (∃ s, json_loads s = Except.ok (finalFix content)) ∨
      isErrorEnvelope (finalFix content) = true := by
  rw [finalFix]
  cases h : json_loads
      (stripCtrl (subCommaClose ']' (subCommaClose '}' content))) with
  | ok v =>
    exact Or.inl ⟨stripCtrl (subCommaClose ']' (subCommaClose '}' content)), h⟩
  | error e => exact Or.inr (isErrorEnvelope_errorEnvelope content e)

theorem innerParse_total (c ex : List Char) :
    (∃ s, json_loads s = Except.ok (innerParse c ex)) ∨
      isErrorEnvelope (innerParse c ex) = true := by
  cases h3 : json_loads ex with
  | ok v =>
    have hv : innerParse c ex = v := by rw [innerParse, h3]
    rw [hv]
    exact Or.inl ⟨ex, h3⟩
  | error e3 =>
    cases h4 : json_loads (stripCtrl (subCommaClose ']'
        (subCommaClose '}' ex))) with
    | ok v =>
      have hv : innerParse c ex = v := by rw [innerParse, h3, h4]
      rw [hv]
      exact Or.inl ⟨stripCtrl (subCommaClose ']' (subCommaClose '}' ex)), h4⟩
    | error e4 =>
      have hv : innerParse c ex = finalFix c := by rw [innerParse, h3, h4]
      rw [hv]
      exact finalFix_total c

/-- C1: on every input the JSON repair pipeline returns either a value
that the JSON parser accepts on some attempted string, or the error
envelope with exactly the keys `error`, `raw_content_truncated`,
`parse_error`; it has no other outcome. -/
theorem clean_and_parse_json_total (content : List Char) :
    (∃ s, json_loads s = Except.ok (clean_and_parse_json content)) ∨
      isErrorEnvelope (clean_and_parse_json content) = true := by
  rw [clean_and_parse_json]
  generalize pyStrip (subFence (subFenceJson content)) = c
  cases h1 : json_loads c with
  | ok v =>
    have hv : cleanParseCore c = v := by rw [cleanParseCore, h1]
    rw [hv]
    exact Or.inl ⟨c, h1⟩
  | error e1 =>
    cases h2 : extract_json_substring c with
    | none =>
      have hv : cleanParseCore c = finalFix c := by
        rw [cleanParseCore, h1, h2]
      rw [hv]
      exact finalFix_total c
    | some extracted =>
      have hv : cleanParseCore c =
          if extracted = [] then finalFix c else innerParse c extracted := by
        rw [cleanParseCore, h1, h2]
      rw [hv]
      by_cases hex : extracted = []
      · rw [if_pos hex]
        exact finalFix_total c
      · rw [if_neg hex]
        exact innerParse_total c extracted

/-- C7 input: a markdown-fenced JSON object with a trailing comma. -/
def c7_input : List Char :=
  "\x60\x60\x60json\n\x7b\"a\": 1,\x7d\n\x60\x60\x60".toList

/-- C7: the fenced, trailing-comma input repairs to the mapping
`a ↦ 1` and is not an error envelope. -/
theorem clean_and_parse_json_c7 :
    clean_and_parse_json c7_input =
      JsonValue.obj [("a".toList, JsonValue.num ['1'])]
    ∧ isErrorEnvelope (clean_and_parse_json c7_input) = false := by
  constructor
  · rfl
  · rfl

/-! ## QwenClient.analyze_content — mode selection
(src/llm_processor/qwen_client.py, lines 231-397)

`generate_json` is abstracted as an oracle from the prompt mode to either
an exception (`Except.error`, network/API failure) or the JSON value
produced by the repair pipeline.  The second component of the result
records the sequence of `generate_json` calls made. -/

inductive Mode where
  | full
  | compact
deriving DecidableEq

/-- Python `"error" in result`: key test on dicts, membership on lists,
substring on strings, `TypeError` otherwise. -/
def contains_error : JsonValue → Except Unit Bool
  | .obj entries => .ok (decide ("error".toList ∈ entries.map Prod.fst))
  | .arr items =>
    .ok (items.any (fun x =>
      match x with
      | .str s => decide (s = "error".toList)
      | _ => false))
  | .str s => .ok (decide (List.IsInfix ("error".toList) s))
  | _ => .error ()

/-- `result.setdefault(k, dft)` on a value that must be a dict. -/
def setdefault_j (v : JsonValue) (k : List Char) (dft : JsonValue) :
    Except Unit JsonValue :=
  match v with
  | .obj entries => .ok (.obj (dSetdefault k dft entries))
  | _ => .error ()

/-- `_ensure_required_fields` on a value that must be a dict. -/
def ensure_required_fields_j (v : JsonValue) (vt tr : List Char) :
    Except Unit JsonValue :=
  match v with
  | .obj entries => .ok (.obj (ensure_required_fields entries vt tr))
  | _ => .error ()

/-- `QwenClient._get_fallback_result`. -/
def get_fallback_result (video_title transcript_text : List Char) :
    JsonValue :=
  .obj [("title".toList,
      .str (if video_title = [] then defaultTitle else video_title)),
    ("summary".toList,
      .str (if transcript_text.length > 200 then
        transcript_text.take 200 ++ "...".toList else transcript_text)),
    ("tags".toList, .arr [.str "视频".toList, .str "内容".toList]),
    ("key_insights".toList, .arr [.obj
      [("heading".toList, .str "主要内容".toList),
       ("content".toList,
        .str "视频内容分析暂时不可用，请查看原始转录文本。".toList)]]),
    ("data_table".toList, .obj
      [("headers".toList, .arr []), ("rows".toList, .arr [])]),
    ("action_items".toList, .arr []),
    ("topics".toList, .arr [.str "视频内容".toList]),
    ("sentiment".toList, .str "neutral".toList),
    ("category".toList, .str "general".toList),
    ("error".toList, .str "LLM analysis failed".toList)]

/-- Value computed by the compact-mode block
(`generate_json(compact_prompt, ...)`, error check,
`setdefault("formatted_full_text", "")`, field completion).  Any raised
exception lands in the enclosing `except`, which returns the fallback
result. -/
def compact_value (oracle : Mode → Except Unit JsonValue)
    (video_title transcript_text : List Char) : JsonValue :=
  match oracle .compact with
  | .error _ => get_fallback_result video_title transcript_text
  | .ok result =>
    match contains_error result with
    | .error _ => get_fallback_result video_title transcript_text
    | .ok true => get_fallback_result video_title transcript_text
    | .ok false =>
      match setdefault_j result ("formatted_full_text".toList) (.str []) with
      | .error _ => get_fallback_result video_title transcript_text
      | .ok r2 =>
        match ensure_required_fields_j r2 video_title transcript_text with
        | .error _ => get_fallback_result video_title transcript_text
        | .ok r3 => r3

/-- The compact-mode block with its call trace: it makes exactly one
`generate_json` call (Compact) after the calls in `pre`. -/
def compact_flow (oracle : Mode → Except Unit JsonValue)
    (video_title transcript_text : List Char) (pre : List Mode) :
    JsonValue × List Mode :=
  (compact_value oracle video_title transcript_text, pre ++ [.compact])

/-- Field completion applied to a successful full-mode result; an
exception yields the fallback through the enclosing `except`. -/
def full_success_value (result : JsonValue)
    (video_title transcript_text : List Char) : JsonValue :=
  match ensure_required_fields_j result video_title transcript_text with
  | .error _ => get_fallback_result video_title transcript_text
  | .ok r => r

/-- The full-mode path: one Full call, then either return its completed
result or demote once to the compact block. -/
def full_flow (oracle : Mode → Except Unit JsonValue)
    (video_title transcript_text : List Char) : JsonValue × List Mode :=
  match oracle .full with
  | .error _ => (get_fallback_result video_title transcript_text, [.full])
  | .ok result =>
    match contains_error result with
    | .error _ => (get_fallback_result video_title transcript_text, [.full])
    | .ok false =>
      (full_success_value result video_title transcript_text, [.full])
    | .ok true => compact_flow oracle video_title transcript_text [.full]

/-- `QwenClient.analyze_content`: pick Compact mode directly when
`len(transcript_text) > max_full_text_chars`, otherwise try Full mode,
demoting to Compact once when the result carries an `error` key. -/
def analyze_content (oracle : Mode → Except Unit JsonValue)
    (max_full_text_chars : Nat) (transcript_text video_title : List Char) :
    JsonValue × List Mode :=
  if transcript_text.length > max_full_text_chars then
    compact_flow oracle video_title transcript_text []
  else
    full_flow oracle video_title transcript_text

theorem compact_flow_calls (oracle : Mode → Except Unit JsonValue)
    (vt tr : List Char) (pre : List Mode) :
    (compact_flow oracle vt tr pre).2 = pre ++ [Mode.compact] := rfl

/-- C5 counterexample oracle: every call succeeds with an empty object. -/
def c5_oracle : Mode → Except Unit JsonValue := fun _ => .ok (.obj [])

/-- C5 counterexample: with threshold 3 and the three-character transcript
`abc` (length at the threshold), the extractor still makes a Full-mode
call, because the code tests `len > threshold`, not `len ≥ threshold`. -/
theorem analyze_content_c5_counterexample :
    ("abc".toList).length ≥ 3
      ∧ Mode.full ∈ (analyze_content c5_oracle 3 ("abc".toList) []).2 := by
  constructor
  · decide
  · decide

/-- C5 amended: with input length at or below the threshold the first
call is Full mode; with length strictly above it the call sequence is
exactly one Compact-mode call — no Full-mode call at all. -/
theorem analyze_content_mode_selection (oracle : Mode → Except Unit JsonValue)
    (max_full_text_chars : Nat) (transcript_text video_title : List Char) :
    (transcript_text.length ≤ max_full_text_chars →
      (analyze_content oracle max_full_text_chars transcript_text
        video_title).2.head? = some Mode.full)
    ∧ (max_full_text_chars < transcript_text.length →
      (analyze_content oracle max_full_text_chars transcript_text
        video_title).2 = [Mode.compact]) := by
  constructor
  · intro hle
    rw [analyze_content,
      if_neg (by omega : ¬ transcript_text.length > max_full_text_chars)]
    rw [full_flow]
    cases h1 : oracle .full with
    | error e => rfl
    | ok result =>
      simp only []
      cases h2 : contains_error result with
      | error e => rfl
      | ok b =>
        cases b with
        | false => rfl
        | true => rfl
  · intro hgt
    rw [analyze_content, if_pos hgt, compact_flow_calls]
    rfl

/-- C5 amended witness at concrete thresholds on both sides. -/
theorem analyze_content_mode_selection_witness :
    (analyze_content (fun _ => Except.ok (JsonValue.obj [])) 3
      ("ab".toList) []).2.head? = some Mode.full
    ∧ (analyze_content (fun _ => Except.ok (JsonValue.obj [])) 3
      ("abcd".toList) []).2 = [Mode.compact] :=
  ⟨(analyze_content_mode_selection (fun _ => Except.ok (JsonValue.obj [])) 3
      ("ab".toList) []).1 (by decide),
   (analyze_content_mode_selection (fun _ => Except.ok (JsonValue.obj [])) 3
      ("abcd".toList) []).2 (by decide)⟩

end FinanceBot
